import Mathlib

/-!
# Verification of the MeshCore serial/MQTT bridge framing and routing logic

Shallow embedding of `meshcore_bridge` (protocol.py, mqtt_handler.py,
serial_handler.py).  Bytes are modelled as natural numbers (well-formed
inputs are `< 256`); byte strings are `List Nat`; Python exceptions are
modelled with `Option`.
-/

namespace MeshcoreBridge

/-! ## protocol.py -/

/-- `FRAME_MAGIC = b"\xc0\x3e"` -/
def FRAME_MAGIC : List Nat := [0xc0, 0x3e]

/-- `HEADER_SIZE = 4` (magic 2 + length 2) -/
def HEADER_SIZE : Nat := 4

/-- `CHECKSUM_SIZE = 2` -/
def CHECKSUM_SIZE : Nat := 2

/-- The loop body of `fletcher16`: for each byte `b`,
`sum1 = (sum1 + b) % 255; sum2 = (sum2 + sum1) % 255`. -/
def fletcherLoop : Nat → Nat → List Nat → Nat × Nat
  | sum1, sum2, [] => (sum1, sum2)
  | sum1, sum2, b :: rest =>
      fletcherLoop ((sum1 + b) % 255) ((sum2 + (sum1 + b) % 255) % 255) rest

/-- `fletcher16(data)`: Fletcher-16 checksum, result `(sum2 << 8) | sum1`. -/
def fletcher16 (data : List Nat) : Nat :=
  let s := fletcherLoop 0 0 data
  (s.2 <<< 8) ||| s.1

/-- Python's `n.to_bytes(2, "big")`: two big-endian bytes, raising
`OverflowError` (modelled as `none`) when `n` does not fit in 16 bits. -/
def toBytes2 (n : Nat) : Option (List Nat) :=
  if n < 65536 then some [n / 256, n % 256] else none

/-- `encode_frame(payload)`: magic + 2-byte big-endian length + payload +
2-byte big-endian Fletcher-16 checksum of the payload.  `none` models the
`OverflowError` raised by `to_bytes` when a field does not fit. -/
def encode_frame (payload : List Nat) : Option (List Nat) :=
  (toBytes2 payload.length).bind fun lenBytes =>
    (toBytes2 (fletcher16 payload)).map fun ckBytes =>
      FRAME_MAGIC ++ lenBytes ++ payload ++ ckBytes

namespace FrameDecoder

/-- The `while True` loop of `FrameDecoder.feed`, acting on the buffer.
Returns the list of validated payloads together with the final buffer.

Each iteration mirrors the Python exactly:
* scan for the first `0xC0`; if absent clear the buffer and stop;
* drop the bytes before it;
* if fewer than 2 bytes remain, stop; if the second byte is not `0x3E`,
  drop one byte and rescan;
* if fewer than `HEADER_SIZE` bytes remain, stop;
* read the big-endian length; if the buffer is shorter than the full
  frame, stop;
* compare the stored checksum with `fletcher16` of the payload region,
  emitting the payload only on a match, and drop the frame's bytes. -/
def feedLoop (buf : List Nat) : List (List Nat) × List Nat :=
  -- `buffer.index(0xC0)` + `del buffer[:start]`: drop everything before the
  -- first magic byte; if there is none, clear the buffer and stop.
  match h : buf.dropWhile (fun x => x ≠ 0xc0) with
  | [] => ([], [])
  | [b0] => ([], [b0])                     -- fewer than 2 bytes: wait
  | b0 :: b1 :: rest =>
    if b1 ≠ 0x3e then
      feedLoop (b1 :: rest)                -- false positive: drop one byte
    else
      match rest with
      | [] => ([], b0 :: b1 :: rest)       -- incomplete header: wait
      | [_] => ([], b0 :: b1 :: rest)      -- incomplete header: wait
      | hi :: lo :: tail =>
        -- `length = buffer[2] << 8 | buffer[3]`
        let length := hi * 256 + lo
        -- `len(buffer) < frame_size`  ⟺  `tail.length < length + 2`
        if tail.length < length + CHECKSUM_SIZE then
          ([], b0 :: b1 :: rest)           -- incomplete frame: wait
        else
          -- `payload = buffer[HEADER_SIZE : HEADER_SIZE + length]`
          let payload := tail.take length
          -- `buffer[HEADER_SIZE+length] << 8 | buffer[HEADER_SIZE+length+1]`
          let received := tail.getD length 0 * 256 + tail.getD (length + 1) 0
          -- `del buffer[:frame_size]`, then continue the loop
          let r := feedLoop (tail.drop (length + CHECKSUM_SIZE))
          (if received = fletcher16 payload then payload :: r.1 else r.1, r.2)
termination_by buf.length
decreasing_by
  all_goals
    have hble := (List.dropWhile_sublist (fun x => x ≠ 0xc0) (l := buf)).length_le
    rw [h] at hble
    simp only [List.length_cons, List.length_drop] at *
    omega

/-- `FrameDecoder.feed`: append the incoming data to the buffer and run the
extraction loop; returns the emitted payloads and the updated buffer. -/
def feed (buffer data : List Nat) : List (List Nat) × List Nat :=
  feedLoop (buffer ++ data)

/-- Feed a byte string one byte per `feed` call, concatenating the emitted
payload lists (the byte-by-byte scenario of the spec). -/
def feedBytes (buffer : List Nat) : List Nat → List (List Nat) × List Nat
  | [] => ([], buffer)
  | d :: ds =>
    let r := feed buffer [d]
    let r' := feedBytes r.2 ds
    (r.1 ++ r'.1, r'.2)

end FrameDecoder

/-! ## mqtt_handler.py -/

/-- Python's `s.split("/")`: split a character sequence at every `'/'`,
keeping empty segments (so the result is always non-empty). -/
def splitSlash : List Char → List (List Char)
  | [] => [[]]
  | c :: rest =>
    match splitSlash rest with
    | [] => [[]]
    | seg :: segs =>
      if c = '/' then [] :: seg :: segs else (c :: seg) :: segs

/-- `MqttHandler._handle_message`, modelled as a pure function.  Topics and
mesh identities are character sequences, and `msg.topic.split("/")` is
`splitSlash`.  The `base64.b64decode` call is abstracted by `decode`;
`decode payload = none` models the call raising, which the handler's
`try/except` absorbs.  The result is the packet handed to `self._on_packet`
(the serial write path, `SerialHandler.write_packet`), or `none` when the
message is dropped. -/
def handle_message (decode : List Nat → Option (List Nat))
    (mesh_id : List Char) (topic : List Char) (payload : List Nat) :
    Option (List Nat) :=
  -- `parts = msg.topic.split("/")`
  let parts := splitSlash topic
  if parts.length < 2 then none
  else
    -- `source_mesh = parts[-1]`
    let source_mesh := parts.getLastD []
    -- ignore our own messages
    if source_mesh = mesh_id then none
    else
      match decode payload with
      | none => none                 -- decode failure: log a warning, return
      | some p => some p             -- forwarded via `self._on_packet(payload)`

/-! ## serial_handler.py (reconnect backoff state machine) -/

/-- `RECONNECT_DELAY_MIN = 1` second. -/
def RECONNECT_DELAY_MIN : Nat := 1

/-- `RECONNECT_DELAY_MAX = 60` seconds. -/
def RECONNECT_DELAY_MAX : Nat := 60

/-- The part of `SerialHandler`'s state governing reconnection:
`self._reconnect_delay`. -/
structure SerialHandler where
  reconnect_delay : Nat

/-- `SerialHandler.__init__`: `self._reconnect_delay = RECONNECT_DELAY_MIN`. -/
def SerialHandler.initState : SerialHandler := ⟨RECONNECT_DELAY_MIN⟩

/-- A successful `SerialHandler.open()`: resets backoff to the minimum. -/
def SerialHandler.openPort (s : SerialHandler) : SerialHandler :=
  { s with reconnect_delay := RECONNECT_DELAY_MIN }

/-- `SerialHandler.try_reconnect`: sleeps for the current delay then attempts
`open()`; `openOk` abstracts whether `serial.Serial(...)` succeeds.  Returns
the slept delay, the boolean result, and the new state: success runs
`open()` (resetting the delay), failure doubles the delay capped at
`RECONNECT_DELAY_MAX`. -/
def SerialHandler.try_reconnect (s : SerialHandler) (openOk : Bool) :
    Nat × Bool × SerialHandler :=
  (s.reconnect_delay,
   if openOk then (true, s.openPort)
   else (false,
     { s with reconnect_delay := min (s.reconnect_delay * 2) RECONNECT_DELAY_MAX }))

/-- Handler state after `n` consecutive failed `try_reconnect` attempts,
starting from the reset state (delay = minimum). -/
def SerialHandler.afterFailures : Nat → SerialHandler
  | 0 => SerialHandler.initState
  | n + 1 => ((SerialHandler.afterFailures n).try_reconnect false).2.2

/-! ## Definitions used only to state claims -/

/-- Modelled from the spec: the Fletcher-16 reference of §4.1 — "two running
sums mod 255, `sum1 += byte; sum2 += sum1`", starting from `sum1 = sum2 = 0`,
"folded as `(sum2 << 8) | sum1`". -/
def fletcher16_reference (data : List Nat) : Nat :=
  let s := data.foldl
    (fun (p : Nat × Nat) b =>
      let s1 := (p.1 + b) % 255
      (s1, (p.2 + s1) % 255))
    ((0, 0) : Nat × Nat)
  (s.2 <<< 8) ||| s.1

/-- `noMagicPair j = true` iff no occurrence of `0xC0` in `j` is immediately
followed by `0x3E` (the junk-prefix condition of the resynchronization
claim). -/
def noMagicPair : List Nat → Bool
  | a :: b :: rest => !(a == 0xc0 && b == 0x3e) && noMagicPair (b :: rest)
  | _ => true

namespace FrameDecoder

/-- Non-dependent unfolding equation for `feedLoop` (one loop iteration). -/
theorem feedLoop_eq (buf : List Nat) :
    feedLoop buf =
      match buf.dropWhile (fun x => x ≠ 0xc0) with
      | [] => ([], [])
      | [b0] => ([], [b0])
      | b0 :: b1 :: rest =>
        if b1 ≠ 0x3e then feedLoop (b1 :: rest)
        else
          match rest with
          | [] => ([], b0 :: b1 :: rest)
          | [_] => ([], b0 :: b1 :: rest)
          | hi :: lo :: tail =>
            let length := hi * 256 + lo
            if tail.length < length + CHECKSUM_SIZE then ([], b0 :: b1 :: rest)
            else
              let payload := tail.take length
              let received := tail.getD length 0 * 256 + tail.getD (length + 1) 0
              let r := feedLoop (tail.drop (length + CHECKSUM_SIZE))
              (if received = fletcher16 payload then payload :: r.1 else r.1,
               r.2) := by
  rw [feedLoop.eq_def]
  split
  next heq => rw [heq]
  next b0 heq => rw [heq]
  next b0 b1 rest heq =>
    conv_rhs => rw [heq]
    by_cases hb : b1 = 0x3e
    · simp only [hb, ne_eq, not_true_eq_false, if_false, ite_false]
      cases rest with
      | nil => rfl
      | cons r0 rtail =>
        cases rtail with
        | nil => rfl
        | cons r1 rtl => rfl
    · simp [hb]

/-- A buffer without the magic start byte is cleared and emits nothing. -/
theorem feedLoop_no_magic (l : List Nat) (h : ∀ x ∈ l, x ≠ 0xc0) :
    feedLoop l = ([], []) := by
  rw [feedLoop_eq]
  rw [List.dropWhile_eq_nil_iff.mpr (by simpa using h)]

/-- Leading bytes without the magic start byte are discarded. -/
theorem feedLoop_junk (j l : List Nat) (hj : ∀ x ∈ j, x ≠ 0xc0) :
    feedLoop (j ++ l) = feedLoop l := by
  rw [feedLoop_eq (j ++ l), feedLoop_eq l,
    List.dropWhile_append_of_pos (by simpa using hj)]

/-- The scan only depends on the buffer from its first magic byte on. -/
theorem feedLoop_dropWhile (l : List Nat) :
    feedLoop (l.dropWhile (fun x => x ≠ 0xc0)) = feedLoop l := by
  have hsplit : l.takeWhile (fun x => x ≠ 0xc0) ++
      l.dropWhile (fun x => x ≠ 0xc0) = l := List.takeWhile_append_dropWhile _ l
  conv_rhs => rw [← hsplit]
  rw [feedLoop_junk]
  intro x hx
  simpa using List.mem_takeWhile_imp hx

/-- The result of the magic scan is empty or starts with the magic byte. -/
theorem dropWhile_magic (l : List Nat) :
    l.dropWhile (fun x => x ≠ 0xc0) = [] ∨
      ∃ t, l.dropWhile (fun x => x ≠ 0xc0) = 0xc0 :: t := by
  induction l with
  | nil => left; rfl
  | cons a t ih =>
    by_cases ha : a = 0xc0
    · right; exact ⟨t, by simp [ha]⟩
    · simpa [List.dropWhile_cons, ha] using ih

/-- A false-positive start byte (magic byte not followed by `0x3E`) is
dropped and the scan restarts. -/
theorem feedLoop_skip (x : Nat) (t : List Nat) (hx : x ≠ 0x3e) :
    feedLoop (0xc0 :: x :: t) = feedLoop (x :: t) := by
  rw [feedLoop_eq]
  have hscrut : List.dropWhile (fun v => v ≠ 0xc0) (0xc0 :: x :: t) =
      0xc0 :: x :: t := by simp
  rw [hscrut]
  simp [hx]

/-- A buffer holding only the magic start byte waits for more data. -/
theorem feedLoop_one : feedLoop [0xc0] = ([], [0xc0]) := by
  rw [feedLoop_eq]; rfl

/-- A buffer with a correct magic pair but an incomplete header waits. -/
theorem feedLoop_wait_hdr (t : List Nat) (h : t.length < 2) :
    feedLoop (0xc0 :: 0x3e :: t) = ([], 0xc0 :: 0x3e :: t) := by
  rw [feedLoop_eq]
  have hscrut : List.dropWhile (fun v => v ≠ 0xc0) (0xc0 :: 0x3e :: t) =
      0xc0 :: 0x3e :: t := by simp
  rw [hscrut]
  rcases t with _ | ⟨y, _ | ⟨z, t'⟩⟩
  · rfl
  · rfl
  · simp only [List.length_cons] at h; omega

/-- A buffer whose frame is not yet complete waits. -/
theorem feedLoop_wait_frame (hi lo : Nat) (tail : List Nat)
    (h : tail.length < hi * 256 + lo + CHECKSUM_SIZE) :
    feedLoop (0xc0 :: 0x3e :: hi :: lo :: tail) =
      ([], 0xc0 :: 0x3e :: hi :: lo :: tail) := by
  rw [feedLoop_eq]
  have hscrut : List.dropWhile (fun v => v ≠ 0xc0)
      (0xc0 :: 0x3e :: hi :: lo :: tail) = 0xc0 :: 0x3e :: hi :: lo :: tail := by
    simp
  rw [hscrut]
  simp [h]

/-- Unfolding for a buffer holding a complete frame (header plus enough
bytes), before checksum validation. -/
theorem feedLoop_complete (hi lo : Nat) (tail : List Nat)
    (h : ¬ tail.length < hi * 256 + lo + CHECKSUM_SIZE) :
    feedLoop (0xc0 :: 0x3e :: hi :: lo :: tail) =
      (if tail.getD (hi * 256 + lo) 0 * 256 + tail.getD (hi * 256 + lo + 1) 0 =
            fletcher16 (tail.take (hi * 256 + lo))
        then tail.take (hi * 256 + lo) ::
          (feedLoop (tail.drop (hi * 256 + lo + CHECKSUM_SIZE))).1
        else (feedLoop (tail.drop (hi * 256 + lo + CHECKSUM_SIZE))).1,
       (feedLoop (tail.drop (hi * 256 + lo + CHECKSUM_SIZE))).2) := by
  rw [feedLoop_eq]
  have hscrut : List.dropWhile (fun v => v ≠ 0xc0)
      (0xc0 :: 0x3e :: hi :: lo :: tail) = 0xc0 :: 0x3e :: hi :: lo :: tail := by
    simp
  rw [hscrut]
  simp [h]

/-- Processing one complete, well-headed frame at the front of the buffer:
the stored checksum is compared against `fletcher16` of the payload, the
frame bytes are removed, and the loop continues on the remainder. -/
theorem frame_step (pl : List Nat) (ck : Nat) (rest : List Nat) :
    feedLoop (0xc0 :: 0x3e :: (pl.length / 256) :: (pl.length % 256) ::
        (pl ++ [ck / 256, ck % 256] ++ rest)) =
      (if ck = fletcher16 pl then pl :: (feedLoop rest).1
       else (feedLoop rest).1,
       (feedLoop rest).2) := by
  rw [feedLoop_eq]
  have hscrut : List.dropWhile (fun v => v ≠ 0xc0)
      (0xc0 :: 0x3e :: (pl.length / 256) :: (pl.length % 256) ::
        (pl ++ [ck / 256, ck % 256] ++ rest)) =
      0xc0 :: 0x3e :: (pl.length / 256) :: (pl.length % 256) ::
        (pl ++ [ck / 256, ck % 256] ++ rest) := by simp
  rw [hscrut]
  simp only [ne_eq, not_true_eq_false, if_false, ite_false, reduceIte]
  have hL : pl.length / 256 * 256 + pl.length % 256 = pl.length := by omega
  rw [hL]
  have hC : ck / 256 * 256 + ck % 256 = ck := by omega
  have hguard : ¬ (pl ++ [ck / 256, ck % 256] ++ rest).length <
      pl.length + CHECKSUM_SIZE := by
    simp [CHECKSUM_SIZE]
  rw [if_neg hguard]
  have hdrop : List.drop (pl.length + CHECKSUM_SIZE)
      (pl ++ [ck / 256, ck % 256] ++ rest) = rest :=
    List.drop_left' (by simp [CHECKSUM_SIZE])
  rw [hdrop, List.append_assoc]
  have htake : List.take pl.length (pl ++ ([ck / 256, ck % 256] ++ rest)) = pl :=
    List.take_left' rfl
  rw [htake]
  rw [List.getD_append_right pl _ 0 pl.length (Nat.le_refl _),
      List.getD_append_right pl _ 0 (pl.length + 1) (by omega),
      Nat.sub_self, (show pl.length + 1 - pl.length = 1 by omega)]
  simp [hC]

/-- The empty buffer emits nothing and stays empty. -/
theorem feedLoop_nil : feedLoop [] = ([], []) :=
  feedLoop_no_magic [] (by intro x hx; cases hx)

/-- Splitting one `feed`'s data into two consecutive `feed`s yields the same
payloads and the same final buffer (the loop is prefix-compositional). -/
theorem feedLoop_append (buf d : List Nat) :
    feedLoop (buf ++ d) =
      ((feedLoop buf).1 ++ (feedLoop ((feedLoop buf).2 ++ d)).1,
       (feedLoop ((feedLoop buf).2 ++ d)).2) := by
  rcases hmag : buf.dropWhile (fun x => x ≠ 0xc0) with _ | ⟨b0, t⟩
  · -- no magic byte anywhere: the buffer is cleared
    have hall : ∀ x ∈ buf, x ≠ 0xc0 := by
      have := List.dropWhile_eq_nil_iff.mp hmag
      simpa using this
    rw [feedLoop_no_magic buf hall, feedLoop_junk buf d hall]
    simp
  · -- buf = (magic-free junk) ++ 0xc0 :: t
    have hb0 : b0 = 0xc0 := by
      rcases dropWhile_magic buf with h | ⟨t', h⟩
      · rw [hmag] at h; cases h
      · rw [hmag] at h; exact (List.cons.injEq _ _ _ _ ▸ h).1
    subst hb0
    have hjunk : ∀ x ∈ buf.takeWhile (fun x => x ≠ 0xc0), x ≠ 0xc0 := by
      intro x hx; simpa using List.mem_takeWhile_imp hx
    have hsplit : buf.takeWhile (fun x => x ≠ 0xc0) ++ (0xc0 :: t) = buf := by
      rw [← hmag]; exact List.takeWhile_append_dropWhile _ buf
    have hlen : t.length + 1 ≤ buf.length := by
      have := congrArg List.length hsplit
      simp only [List.length_append, List.length_cons] at this
      omega
    have hbuf : feedLoop buf = feedLoop (0xc0 :: t) := by
      conv_lhs => rw [← hsplit]
      exact feedLoop_junk _ _ hjunk
    have hbufd : feedLoop (buf ++ d) = feedLoop ((0xc0 :: t) ++ d) := by
      conv_lhs => rw [← hsplit, List.append_assoc]
      exact feedLoop_junk _ _ hjunk
    rcases t with _ | ⟨x, t'⟩
    · -- buffer is exactly [0xc0]: wait for more data
      rw [hbufd, hbuf, feedLoop_one]
      simp
    by_cases hx : x = 0x3e
    · subst hx
      rcases t' with _ | ⟨y, t''⟩
      · -- [0xc0, 0x3e]: incomplete header
        rw [hbufd, hbuf, feedLoop_wait_hdr [] (by simp)]
        simp
      rcases t'' with _ | ⟨z, tail⟩
      · -- [0xc0, 0x3e, y]: incomplete header
        rw [hbufd, hbuf, feedLoop_wait_hdr [y] (by simp)]
        simp
      by_cases hfit : tail.length < y * 256 + z + CHECKSUM_SIZE
      · -- complete header, incomplete frame
        rw [hbufd, hbuf, feedLoop_wait_frame y z tail hfit]
        simp
      · -- complete frame at the front
        rw [hbufd, hbuf, feedLoop_complete y z tail hfit]
        have hfit' : ¬ (tail ++ d).length < y * 256 + z + CHECKSUM_SIZE := by
          simp only [List.length_append]; omega
        have hcons : (0xc0 :: 0x3e :: y :: z :: tail) ++ d =
            0xc0 :: 0x3e :: y :: z :: (tail ++ d) := rfl
        rw [hcons, feedLoop_complete y z (tail ++ d) hfit']
        simp only [CHECKSUM_SIZE] at hfit hfit' ⊢
        rw [List.take_append_of_le_length (by omega),
            List.getD_append _ _ _ _ (by omega),
            List.getD_append _ _ _ _ (by omega),
            List.drop_append_of_le_length (by omega)]
        have hrec := feedLoop_append (tail.drop (y * 256 + z + 2)) d
        rw [hrec]
        simp only [Prod.mk.injEq, and_true]
        split
        · simp
        · rfl
    · -- false-positive start byte: drop it and rescan
      rw [hbufd, hbuf]
      have hcons : (0xc0 :: x :: t') ++ d = 0xc0 :: x :: (t' ++ d) := rfl
      rw [hcons, feedLoop_skip x t' hx, feedLoop_skip x (t' ++ d) hx]
      have hcons2 : x :: (t' ++ d) = (x :: t') ++ d := rfl
      rw [hcons2]
      exact feedLoop_append (x :: t') d
termination_by buf.length
decreasing_by
  · simp only [List.length_drop]
    simp only [List.length_cons] at hlen
    omega
  · simp only [List.length_cons] at hlen ⊢
    omega

end FrameDecoder

/-! ## Arithmetic facts about `fletcher16` -/

/-- Folding `(a <<< 8) ||| b` back into arithmetic when `b` is a byte pair
component below 256. -/
theorem shiftLeft_or_eq (a b : Nat) (hb : b < 256) :
    (a <<< 8) ||| b = 256 * a + b := by
  rw [Nat.shiftLeft_eq, Nat.mul_comm]
  exact (Nat.mul_add_lt_is_or hb a).symm

/-- Both running sums of the Fletcher loop stay below 255. -/
theorem fletcherLoop_lt (l : List Nat) :
    ∀ s1 s2, s1 < 255 → s2 < 255 →
      (fletcherLoop s1 s2 l).1 < 255 ∧ (fletcherLoop s1 s2 l).2 < 255 := by
  induction l with
  | nil => intro s1 s2 h1 h2; exact ⟨h1, h2⟩
  | cons b t ih =>
    intro s1 s2 _ _
    exact ih _ _ (Nat.mod_lt _ (by norm_num)) (Nat.mod_lt _ (by norm_num))

/-- `fletcher16` fits in 16 bits (so `to_bytes(2)` of it never fails). -/
theorem fletcher16_lt (l : List Nat) : fletcher16 l < 65536 := by
  unfold fletcher16
  obtain ⟨h1, h2⟩ := fletcherLoop_lt l 0 0 (by norm_num) (by norm_num)
  rw [shiftLeft_or_eq _ _ (by omega)]
  omega

/-- The first running sum is the byte sum mod 255. -/
theorem fletcherLoop_fst (l : List Nat) :
    ∀ s1 s2, s1 < 255 → (fletcherLoop s1 s2 l).1 = (s1 + l.sum) % 255 := by
  induction l with
  | nil =>
    intro s1 s2 h1
    simp [fletcherLoop, Nat.mod_eq_of_lt h1]
  | cons b t ih =>
    intro s1 s2 h1
    rw [fletcherLoop, ih _ _ (Nat.mod_lt _ (by norm_num)), List.sum_cons,
      Nat.mod_add_mod]
    ring_nf

/-- The low byte of `fletcher16` is the byte sum mod 255. -/
theorem fletcher16_mod_256 (l : List Nat) :
    fletcher16 l % 256 = l.sum % 255 := by
  unfold fletcher16
  obtain ⟨h1, _⟩ := fletcherLoop_lt l 0 0 (by norm_num) (by norm_num)
  rw [shiftLeft_or_eq _ _ (by omega), Nat.mul_add_mod,
    Nat.mod_eq_of_lt (by omega), fletcherLoop_fst l 0 0 (by norm_num)]
  simp

/-- Replacing one element changes the sum by the difference of the bytes. -/
theorem sum_set_add (l : List Nat) :
    ∀ i c, i < l.length → (l.set i c).sum + l.getD i 0 = l.sum + c := by
  induction l with
  | nil => intro i c h; simp at h
  | cons b t ih =>
    intro i c h
    cases i with
    | zero => simp [List.set]; omega
    | succ j =>
      simp only [List.set, List.sum_cons, List.getD_cons_succ]
      have := ih j c (by simpa using Nat.lt_of_succ_lt_succ h)
      omega

/-- Fletcher-16 detects every single-byte substitution whose residue mod 255
changes (the `0x00 ↔ 0xFF` swap is the unique undetected byte substitution). -/
theorem fletcher16_set_ne (l : List Nat) (i c : Nat) (hi : i < l.length)
    (hne : c % 255 ≠ l.getD i 0 % 255) :
    fletcher16 (l.set i c) ≠ fletcher16 l := by
  intro heq
  have hmod : (l.set i c).sum % 255 = l.sum % 255 := by
    have := congrArg (· % 256) heq
    simpa [fletcher16_mod_256] using this
  have hsum := sum_set_add l i c hi
  have : (l.sum + c) % 255 = (l.sum + l.getD i 0) % 255 := by
    calc (l.sum + c) % 255 = ((l.set i c).sum + l.getD i 0) % 255 := by rw [hsum]
    _ = (l.sum + l.getD i 0) % 255 := by
        rw [Nat.add_mod, hmod, ← Nat.add_mod]
  exact hne (Nat.ModEq.add_left_cancel' l.sum this)

/-! ## Facts about `encode_frame` -/

/-- Successful encoding, in explicit byte form. -/
theorem encode_frame_eq (p : List Nat) (hp : p.length ≤ 65535) :
    encode_frame p = some (0xc0 :: 0x3e :: (p.length / 256) :: (p.length % 256) ::
      (p ++ [fletcher16 p / 256, fletcher16 p % 256])) := by
  unfold encode_frame toBytes2
  rw [if_pos (by omega), if_pos (fletcher16_lt p)]
  simp [FRAME_MAGIC]

/-- Oversized payloads make `to_bytes(2)` raise, modelled as `none`. -/
theorem encode_frame_none (p : List Nat) (hp : 65535 < p.length) :
    encode_frame p = none := by
  unfold encode_frame toBytes2
  rw [if_neg (by omega)]
  rfl

namespace FrameDecoder

/-- A validly encoded frame at the front of the buffer is emitted and
consumed; the loop continues on the remaining bytes. -/
theorem feedLoop_frame (p rest : List Nat) (hp : p.length ≤ 65535) :
    feedLoop ((encode_frame p).getD [] ++ rest) =
      (p :: (feedLoop rest).1, (feedLoop rest).2) := by
  rw [encode_frame_eq p hp, Option.getD_some]
  simp only [List.cons_append]
  rw [frame_step p (fletcher16 p) rest, if_pos rfl]

/-- Any concatenation of validly encoded frames decodes to exactly the
encoded payloads, in order, leaving an empty buffer. -/
theorem feedLoop_frames (ps : List (List Nat)) (h : ∀ p ∈ ps, p.length ≤ 65535) :
    feedLoop ((ps.map fun p => (encode_frame p).getD []).flatten) = (ps, []) := by
  induction ps with
  | nil => simpa using feedLoop_nil
  | cons p ps ih =>
    rw [List.map_cons, List.flatten_cons, feedLoop_frame p _ (h p (by simp)),
      ih (fun q hq => h q (by simp [hq]))]

/-- Invariant of the residual buffer after any `feed`: it is empty or starts
with the magic byte, and re-running the loop on it alone emits nothing and
leaves it unchanged (no complete decodable frame is retained). -/
theorem feedLoop_residual (l : List Nat) :
    ((feedLoop l).2 = [] ∨ ∃ t, (feedLoop l).2 = 0xc0 :: t) ∧
      feedLoop ((feedLoop l).2) = ([], (feedLoop l).2) := by
  rcases hmag : l.dropWhile (fun x => x ≠ 0xc0) with _ | ⟨b0, t⟩
  · have hall : ∀ x ∈ l, x ≠ 0xc0 := by
      have := List.dropWhile_eq_nil_iff.mp hmag
      simpa using this
    rw [feedLoop_no_magic l hall]
    exact ⟨Or.inl rfl, feedLoop_nil⟩
  · have hb0 : b0 = 0xc0 := by
      rcases dropWhile_magic l with h | ⟨t', h⟩
      · rw [hmag] at h; cases h
      · rw [hmag] at h; exact (List.cons.injEq _ _ _ _ ▸ h).1
    subst hb0
    have hl : feedLoop l = feedLoop (0xc0 :: t) := by
      rw [← feedLoop_dropWhile l, hmag]
    have hlen : t.length + 1 ≤ l.length := by
      have hle : (l.dropWhile (fun x => x ≠ 0xc0)).length ≤ l.length :=
        (List.dropWhile_sublist _).length_le
      rw [hmag] at hle
      simpa using hle
    rcases t with _ | ⟨x, t'⟩
    · rw [hl, feedLoop_one]
      exact ⟨Or.inr ⟨[], rfl⟩, feedLoop_one⟩
    by_cases hx : x = 0x3e
    · subst hx
      rcases t' with _ | ⟨y, t''⟩
      · rw [hl, feedLoop_wait_hdr [] (by simp)]
        exact ⟨Or.inr ⟨_, rfl⟩, feedLoop_wait_hdr [] (by simp)⟩
      rcases t'' with _ | ⟨z, tail⟩
      · rw [hl, feedLoop_wait_hdr [y] (by simp)]
        exact ⟨Or.inr ⟨_, rfl⟩, feedLoop_wait_hdr [y] (by simp)⟩
      by_cases hfit : tail.length < y * 256 + z + CHECKSUM_SIZE
      · rw [hl, feedLoop_wait_frame y z tail hfit]
        exact ⟨Or.inr ⟨_, rfl⟩, feedLoop_wait_frame y z tail hfit⟩
      · rw [hl, feedLoop_complete y z tail hfit]
        have hrec := feedLoop_residual (tail.drop (y * 256 + z + CHECKSUM_SIZE))
        simpa using hrec
    · rw [hl, feedLoop_skip x t' hx]
      exact feedLoop_residual (x :: t')
termination_by l.length
decreasing_by
  · simp only [List.length_cons] at hlen
    simp only [List.length_drop]
    omega
  · simp only [List.length_cons] at hlen ⊢
    omega

/-- Feeding byte-by-byte from any quiescent buffer (one the loop leaves
unchanged, e.g. a fresh decoder's empty buffer) produces the same payloads
and final buffer as one whole feed. -/
theorem feedBytes_feed (s : List Nat) : ∀ b, feedLoop b = ([], b) →
    feedBytes b s = feed b s := by
  induction s with
  | nil =>
    intro b hb
    simp only [feedBytes, feed, List.append_nil]
    rw [hb]
  | cons dd ds ih =>
    intro b hb
    simp only [feedBytes, feed]
    have hres := feedLoop_residual (b ++ [dd])
    have ih' := ih (feedLoop (b ++ [dd])).2 hres.2
    rw [ih']
    simp only [feed]
    have hsplitd : b ++ dd :: ds = (b ++ [dd]) ++ ds := by simp
    rw [hsplitd, feedLoop_append (b ++ [dd]) ds]

end FrameDecoder

/-! ## Relating the Fletcher loop to the spec's fold formulation -/

/-- The explicit Fletcher loop is the left fold of the spec's update step. -/
theorem fletcherLoop_eq_foldl (l : List Nat) : ∀ s1 s2 : Nat,
    fletcherLoop s1 s2 l = l.foldl
      (fun (p : Nat × Nat) b =>
        let t1 := (p.1 + b) % 255
        (t1, (p.2 + t1) % 255)) (s1, s2) := by
  induction l with
  | nil => intro s1 s2; rfl
  | cons b t ih =>
    intro s1 s2
    exact ih ((s1 + b) % 255) ((s2 + (s1 + b) % 255) % 255)

/-! ## The junk-prefix condition of the resynchronization claim -/

/-- `noMagicPair` is closed under taking tails. -/
theorem noMagicPair_tail (a : Nat) (l : List Nat)
    (h : noMagicPair (a :: l) = true) : noMagicPair l = true := by
  cases l with
  | nil => rfl
  | cons b t =>
    simp only [noMagicPair, Bool.and_eq_true] at h
    exact h.2

/-- `noMagicPair` is closed under dropping any prefix. -/
theorem noMagicPair_suffix (pre l : List Nat)
    (h : noMagicPair (pre ++ l) = true) : noMagicPair l = true := by
  induction pre with
  | nil => exact h
  | cons a t ih => exact ih (noMagicPair_tail a (t ++ l) h)

namespace FrameDecoder

/-- Resynchronization: a junk prefix containing no `0xC0 0x3E` pair is fully
consumed, and the valid frame that follows is still decoded. -/
theorem feedLoop_resync (junk p : List Nat) (hnm : noMagicPair junk = true)
    (hp : p.length ≤ 65535) :
    feedLoop (junk ++ (encode_frame p).getD []) = ([p], []) := by
  have hframe : feedLoop ((encode_frame p).getD []) = ([p], []) := by
    have h := feedLoop_frame p [] hp
    rw [List.append_nil] at h
    rw [h, feedLoop_nil]
  rcases hmag : junk.dropWhile (fun x => x ≠ 0xc0) with _ | ⟨b0, t⟩
  · have hall : ∀ x ∈ junk, x ≠ 0xc0 := by
      have := List.dropWhile_eq_nil_iff.mp hmag
      simpa using this
    rw [feedLoop_junk junk _ hall, hframe]
  · have hb0 : b0 = 0xc0 := by
      rcases dropWhile_magic junk with h | ⟨t', h⟩
      · rw [hmag] at h; cases h
      · rw [hmag] at h; exact (List.cons.injEq _ _ _ _ ▸ h).1
    subst hb0
    have hjunk2 : ∀ x ∈ junk.takeWhile (fun x => x ≠ 0xc0), x ≠ 0xc0 := by
      intro x hx; simpa using List.mem_takeWhile_imp hx
    have hsplit : junk.takeWhile (fun x => x ≠ 0xc0) ++ (0xc0 :: t) = junk := by
      rw [← hmag]; exact List.takeWhile_append_dropWhile _ junk
    have hjunkval : feedLoop (junk ++ (encode_frame p).getD []) =
        feedLoop ((0xc0 :: t) ++ (encode_frame p).getD []) := by
      conv_lhs => rw [← hsplit, List.append_assoc]
      exact feedLoop_junk _ _ hjunk2
    have hsuffix : noMagicPair (0xc0 :: t) = true := by
      rw [← hsplit] at hnm
      exact noMagicPair_suffix _ _ hnm
    have hlen : t.length + 1 ≤ junk.length := by
      have hle : (junk.dropWhile (fun x => x ≠ 0xc0)).length ≤ junk.length :=
        (List.dropWhile_sublist _).length_le
      rw [hmag] at hle
      simpa using hle
    rcases t with _ | ⟨x, t'⟩
    · -- the junk ends in a bare 0xc0; the frame's own 0xc0 is not 0x3e,
      -- so that byte is dropped and the frame is found
      rw [hjunkval, encode_frame_eq p hp, Option.getD_some]
      rw [show ([0xc0] : List Nat) ++ (0xc0 :: 0x3e :: (p.length / 256) ::
          (p.length % 256) :: (p ++ [fletcher16 p / 256, fletcher16 p % 256])) =
        0xc0 :: 0xc0 :: 0x3e :: (p.length / 256) :: (p.length % 256) ::
          (p ++ [fletcher16 p / 256, fletcher16 p % 256]) from rfl]
      rw [feedLoop_skip _ _ (by decide)]
      rw [encode_frame_eq p hp, Option.getD_some] at hframe
      exact hframe
    · -- the byte after the junk's 0xc0 is junk again, hence not 0x3e
      have hx : x ≠ 0x3e := by
        intro hxe
        subst hxe
        simp [noMagicPair] at hsuffix
      rw [hjunkval,
        show (0xc0 :: x :: t') ++ (encode_frame p).getD [] =
          0xc0 :: x :: (t' ++ (encode_frame p).getD []) from rfl,
        feedLoop_skip x _ hx,
        show x :: (t' ++ (encode_frame p).getD []) =
          (x :: t') ++ (encode_frame p).getD [] from rfl]
      exact feedLoop_resync (x :: t') p (noMagicPair_tail _ _ hsuffix) hp
termination_by junk.length
decreasing_by
  simp only [List.length_cons] at hlen ⊢
  omega

end FrameDecoder

/-! ## Reconnect backoff -/

/-- After `n` consecutive failures the stored delay is `min (2^n) 60`. -/
theorem afterFailures_delay (n : Nat) :
    (SerialHandler.afterFailures n).reconnect_delay = min (2 ^ n) 60 := by
  induction n with
  | zero =>
    simp [SerialHandler.afterFailures, SerialHandler.initState,
      RECONNECT_DELAY_MIN]
  | succ n ih =>
    simp only [SerialHandler.afterFailures, SerialHandler.try_reconnect,
      Bool.false_eq_true, if_false, ite_false, RECONNECT_DELAY_MAX]
    rw [ih, Nat.pow_succ]
    omega

/-! ## Claim theorems -/

/-- Claim C1: feeding the concatenation of `encode_frame p1 .. encode_frame pk`
(each payload at most 65535 bytes) to a fresh `FrameDecoder` in one `feed`
call returns exactly `[p1, ..., pk]` in order, leaving an empty buffer. -/
theorem c1_roundtrip (ps : List (List Nat)) (h : ∀ p ∈ ps, p.length ≤ 65535) :
    FrameDecoder.feed [] ((ps.map fun p => (encode_frame p).getD []).flatten) =
      (ps, []) :=
  FrameDecoder.feedLoop_frames ps h

/-- Witness for C1 at the two concrete payloads `[1,2,3]` and `[4,5]`. -/
theorem c1_roundtrip_witness :
    (∀ p ∈ ([[1, 2, 3], [4, 5]] : List (List Nat)), p.length ≤ 65535) ∧
    FrameDecoder.feed [] ((([[1, 2, 3], [4, 5]] : List (List Nat)).map
      fun p => (encode_frame p).getD []).flatten) = ([[1, 2, 3], [4, 5]], []) :=
  ⟨by decide, c1_roundtrip [[1, 2, 3], [4, 5]] (by decide)⟩

/-- Claim C2: `fletcher16` equals the spec's Fletcher-16 reference (two
running sums mod 255 folded as `(sum2 << 8) | sum1`); in particular the
empty sequence checksums to 0, and accumulation is mod 255, not mod 256
(mod-256 accumulation would give `0xFFFF`, not `0`, on input `[0xFF]`). -/
theorem c2_fletcher_reference :
    (∀ l : List Nat, fletcher16 l = fletcher16_reference l) ∧
    fletcher16 [] = 0 ∧ fletcher16 [0xff] = 0 := by
  refine ⟨fun l => ?_, by decide, by decide⟩
  simp only [fletcher16, fletcher16_reference]
  rw [fletcherLoop_eq_foldl l 0 0]

/-- Claim C3: the decoder is feed-granularity independent — feeding any byte
sequence one byte per `feed` call to a fresh decoder gives the same payloads
(and even the same final buffer) as feeding it whole in one call. -/
theorem c3_granularity (s : List Nat) :
    FrameDecoder.feedBytes [] s = FrameDecoder.feed [] s :=
  FrameDecoder.feedBytes_feed s [] FrameDecoder.feedLoop_nil

/-- Counterexample to claim C4 as stated: the frame for payload `[0x00]` is
`C0 3E 00 01 00 00 00`; changing its single payload byte to `0xFF` while
keeping the stored checksum yields `C0 3E 00 01 FF 00 00`, which the decoder
still accepts, emitting payload `[0xFF]` instead of dropping the frame
(Fletcher-16 cannot distinguish `0x00` from `0xFF`). -/
theorem c4_counterexample :
    encode_frame [0x00] = some [0xc0, 0x3e, 0, 1, 0x00, 0, 0] ∧
    List.set [0x00] 0 0xff = [0xff] ∧
    FrameDecoder.feed [] [0xc0, 0x3e, 0, 1, 0xff, 0, 0] = ([[0xff]], []) := by
  refine ⟨by decide, by decide, ?_⟩
  have h := FrameDecoder.feedLoop_frames [[0xff]] (by decide)
  have he : (([[0xff]] : List (List Nat)).map fun p =>
      (encode_frame p).getD []).flatten = [0xc0, 0x3e, 0, 1, 0xff, 0, 0] := by
    decide
  rw [he] at h
  exact h

/-- Claim C4 (amended): changing a single payload byte of a valid frame to a
byte with a *different residue mod 255* (this excludes only the undetectable
`0x00 ↔ 0xFF` swap), leaving the stored checksum unchanged, makes the
decoder drop the frame without error and still decode a valid frame appended
immediately after it in the same feed call. -/
theorem c4_corruption_dropped (p : List Nat) (i c : Nat) (q : List Nat)
    (hi : i < p.length) (hc : c % 255 ≠ p.getD i 0 % 255)
    (hq : q.length ≤ 65535) :
    FrameDecoder.feed []
      ((0xc0 :: 0x3e :: (p.length / 256) :: (p.length % 256) ::
        (p.set i c ++ [fletcher16 p / 256, fletcher16 p % 256])) ++
        (encode_frame q).getD []) = ([q], []) := by
  have hferr : fletcher16 p ≠ fletcher16 (p.set i c) := fun h =>
    fletcher16_set_ne p i c hi hc h.symm
  have hframe : FrameDecoder.feedLoop ((encode_frame q).getD []) = ([q], []) := by
    have h := FrameDecoder.feedLoop_frame q [] hq
    rw [List.append_nil] at h
    rw [h, FrameDecoder.feedLoop_nil]
  show FrameDecoder.feedLoop
      ([] ++ ((0xc0 :: 0x3e :: (p.length / 256) :: (p.length % 256) ::
        (p.set i c ++ [fletcher16 p / 256, fletcher16 p % 256])) ++
        (encode_frame q).getD [])) = ([q], [])
  rw [List.nil_append]
  rw [show (0xc0 :: 0x3e :: (p.length / 256) :: (p.length % 256) ::
        (p.set i c ++ [fletcher16 p / 256, fletcher16 p % 256])) ++
        (encode_frame q).getD [] =
      0xc0 :: 0x3e :: (p.length / 256) :: (p.length % 256) ::
        (p.set i c ++ [fletcher16 p / 256, fletcher16 p % 256] ++
          (encode_frame q).getD []) from by simp]
  rw [show p.length = (p.set i c).length by simp]
  rw [FrameDecoder.frame_step (p.set i c) (fletcher16 p) _]
  rw [if_neg hferr, hframe]

/-- Witness for the amended C4: payload `[0x00]`, byte 0 changed to `0x01`
(checksum kept), followed by the valid frame for `[7]`; only `[7]` is
emitted. -/
theorem c4_corruption_dropped_witness :
    ((0 : Nat) < List.length [0x00] ∧
      (1 : Nat) % 255 ≠ List.getD [0x00] 0 0 % 255 ∧
      List.length [7] ≤ 65535) ∧
    FrameDecoder.feed []
      ((0xc0 :: 0x3e :: (List.length [0x00] / 256) :: (List.length [0x00] % 256) ::
        (List.set [0x00] 0 0x01 ++
          [fletcher16 [0x00] / 256, fletcher16 [0x00] % 256])) ++
        (encode_frame [7]).getD []) = ([[7]], []) :=
  ⟨⟨by decide, by decide, by decide⟩,
   c4_corruption_dropped [0x00] 0 0x01 [7] (by decide) (by decide) (by decide)⟩

/-- Claim C5: a candidate start byte `0xC0` whose successor is not `0x3E` is
dropped as exactly one byte and the scan restarts; consequently any junk
prefix with no adjacent `0xC0 0x3E` pair still lets the following valid
frame decode. -/
theorem c5_resynchronization (x : Nat) (t junk p : List Nat)
    (hx : x ≠ 0x3e) (hnm : noMagicPair junk = true) (hp : p.length ≤ 65535) :
    FrameDecoder.feedLoop (0xc0 :: x :: t) = FrameDecoder.feedLoop (x :: t) ∧
    FrameDecoder.feed [] (junk ++ (encode_frame p).getD []) = ([p], []) :=
  ⟨FrameDecoder.feedLoop_skip x t hx,
   FrameDecoder.feedLoop_resync junk p hnm hp⟩

/-- Witness for C5: junk `[1, 0xC0, 2]` (a false-positive `0xC0` inside),
followed by the frame for payload `[0xC0, 0x3E]` (magic bytes inside the
payload, as the spec asks to verify). -/
theorem c5_resynchronization_witness :
    ((0 : Nat) ≠ 0x3e ∧ noMagicPair [1, 0xc0, 2] = true ∧
      List.length [0xc0, 0x3e] ≤ 65535) ∧
    (FrameDecoder.feedLoop [0xc0, 0, 9] = FrameDecoder.feedLoop [0, 9] ∧
     FrameDecoder.feed [] ([1, 0xc0, 2] ++ (encode_frame [0xc0, 0x3e]).getD []) =
       ([[0xc0, 0x3e]], [])) :=
  ⟨⟨by decide, by decide, by decide⟩,
   c5_resynchronization 0 [9] [1, 0xc0, 2] [0xc0, 0x3e]
     (by decide) (by decide) (by decide)⟩

/-- Claim C6: a broker message whose topic's trailing identity segment equals
the local mesh identity is never handed to the serial write path —
`_handle_message` returns without invoking `on_packet`, for every decoder
behaviour and payload. -/
theorem c6_self_suppression (decode : List Nat → Option (List Nat))
    (mesh_id topic : List Char) (payload : List Nat)
    (h : (splitSlash topic).getLastD [] = mesh_id) :
    handle_message decode mesh_id topic payload = none := by
  simp only [handle_message]
  rcases Nat.lt_or_ge (splitSlash topic).length 2 with hlen | hlen
  · rw [if_pos hlen]
  · rw [if_neg (Nat.not_lt.mpr hlen), if_pos h]

/-- Witness for C6 on topic `mesh/alpha` with local identity `alpha`. -/
theorem c6_self_suppression_witness :
    (splitSlash "mesh/alpha".toList).getLastD [] = "alpha".toList ∧
    handle_message (fun _ => some [1]) "alpha".toList "mesh/alpha".toList [0] =
      none :=
  ⟨by decide,
   c6_self_suppression (fun _ => some [1]) "alpha".toList "mesh/alpha".toList
     [0] (by decide)⟩

/-- Claim C7: from the reset state, the delay slept by `try_reconnect` on
attempt `n+1` after `n` consecutive failures is `min (2^n) 60` seconds
(regardless of that attempt's outcome), and any successful open — at `open`
itself or inside `try_reconnect` — resets the delay to the 1-second
minimum. -/
theorem c7_backoff :
    (∀ (n : Nat) (b : Bool),
      ((SerialHandler.afterFailures n).try_reconnect b).1 = min (2 ^ n) 60) ∧
    (∀ s : SerialHandler, s.openPort.reconnect_delay = RECONNECT_DELAY_MIN) ∧
    (∀ s : SerialHandler,
      ((s.try_reconnect true).2.2).reconnect_delay = RECONNECT_DELAY_MIN) := by
  refine ⟨fun n b => ?_, fun s => rfl, fun s => rfl⟩
  simpa [SerialHandler.try_reconnect] using afterFailures_delay n

/-- Claim C8: `encode_frame` is deterministic and total for payloads of
length at most 65535 — producing magic, length bytes, payload, then checksum
bytes computed from the payload alone — and signals an encoding error
(`none`, the `OverflowError` of `to_bytes`) for longer payloads. -/
theorem c8_encode_total (p : List Nat) :
    (p.length ≤ 65535 →
      encode_frame p = some (0xc0 :: 0x3e :: (p.length / 256) ::
        (p.length % 256) ::
        (p ++ [fletcher16 p / 256, fletcher16 p % 256]))) ∧
    (65535 < p.length → encode_frame p = none) :=
  ⟨fun h => encode_frame_eq p h, fun h => encode_frame_none p h⟩

/-- Witness for C8: both branches, at `[1,2,3]` and at a 65536-byte payload. -/
theorem c8_encode_total_witness :
    (List.length [1, 2, 3] ≤ 65535 ∧
      encode_frame [1, 2, 3] = some (0xc0 :: 0x3e ::
        (List.length [1, 2, 3] / 256) :: (List.length [1, 2, 3] % 256) ::
        ([1, 2, 3] ++ [fletcher16 [1, 2, 3] / 256, fletcher16 [1, 2, 3] % 256]))) ∧
    (65535 < (List.replicate 65536 (0 : Nat)).length ∧
      encode_frame (List.replicate 65536 (0 : Nat)) = none) :=
  ⟨⟨by decide, (c8_encode_total [1, 2, 3]).1 (by decide)⟩,
   ⟨by rw [List.length_replicate]; omega,
    (c8_encode_total (List.replicate 65536 (0 : Nat))).2
      (by rw [List.length_replicate]; omega)⟩⟩

/-- Claim C9: an inbound broker message from a non-local identity whose
payload fails decoding is dropped — the failure is absorbed (the handler
returns normally, modelled by totality of `handle_message`) and nothing is
forwarded to the serial write path. -/
theorem c9_decode_failure_dropped (decode : List Nat → Option (List Nat))
    (mesh_id topic : List Char) (payload : List Nat)
    (hsrc : (splitSlash topic).getLastD [] ≠ mesh_id)
    (hdec : decode payload = none) :
    handle_message decode mesh_id topic payload = none := by
  simp only [handle_message]
  rcases Nat.lt_or_ge (splitSlash topic).length 2 with hlen | hlen
  · rw [if_pos hlen]
  · rw [if_neg (Nat.not_lt.mpr hlen), if_neg hsrc, hdec]

/-- Witness for C9 on topic `mesh/beta`, local identity `alpha`, with a
failing decoder. -/
theorem c9_decode_failure_dropped_witness :
    ((splitSlash "mesh/beta".toList).getLastD [] ≠ "alpha".toList ∧
      (fun _ : List Nat => (none : Option (List Nat))) [9] = none) ∧
    handle_message (fun _ => none) "alpha".toList "mesh/beta".toList [9] =
      none :=
  ⟨⟨by decide, rfl⟩,
   c9_decode_failure_dropped (fun _ => none) "alpha".toList "mesh/beta".toList
     [9] (by decide) rfl⟩

/-- Claim C10: after any `feed` on any decoder state, the buffer is empty or
starts with the magic byte `0xC0`, and it retains no complete decodable
frame — feeding no further data emits nothing and leaves it unchanged. -/
theorem c10_buffer_invariant (buffer data : List Nat) :
    ((FrameDecoder.feed buffer data).2 = [] ∨
      ∃ t, (FrameDecoder.feed buffer data).2 = 0xc0 :: t) ∧
    FrameDecoder.feed (FrameDecoder.feed buffer data).2 [] =
      ([], (FrameDecoder.feed buffer data).2) := by
  have h := FrameDecoder.feedLoop_residual (buffer ++ data)
  refine ⟨h.1, ?_⟩
  show FrameDecoder.feedLoop ((FrameDecoder.feed buffer data).2 ++ []) = _
  rw [List.append_nil]
  exact h.2

end MeshcoreBridge
